import Mathlib

/-!
Verification of the Def parsing and inheritance resolution engine of the
RimworldXMLTools repository (src/inheritance.rs, src/xml_parser.rs).

The Rust code is shallowly embedded as executable Lean definitions:

* Rust `String` operations (`trim`, `ends_with`, `to_lowercase`, `Ord`)
  are modelled over `String.data` (the character list); Rust's byte-wise
  lexicographic order on UTF-8 strings coincides with character-wise
  lexicographic order on unicode scalar values.
* `BTreeMap<String, XmlNode>` is modelled as an association list kept
  sorted strictly by key (`insertSorted`); in-place mutation through
  `get_mut` is modelled by `updateA`, which replaces the value in place.
* The `quick_xml` event stream is modelled by the `XmlEvent` type; the
  `Err(_) => break` arm of the Rust event loops is the `err` event, and
  `Ok(Event::Eof) => break` is the `eof` event.
* The GUI state of `InheritanceTab` is dropped; `expand_inheritance`
  becomes a function of the def index and the selected name.  The Rust
  `while let` walk over parents has no termination guarantee, so it is
  embedded with explicit fuel: a `none` result for every fuel value is
  the embedding of non-termination.
-/

/-- Model of Rust `str::trim` (drop leading and trailing whitespace). -/
def trimStr (s : String) : String :=
  String.mk (((s.data.dropWhile Char.isWhitespace).reverse.dropWhile Char.isWhitespace).reverse)

/-- Model of Rust `str::ends_with`. -/
def endsWithStr (s suffix : String) : Bool :=
  suffix.data.isSuffixOf s.data

/-- Model of Rust `str::to_lowercase` (ASCII-faithful). -/
def toLowerStr (s : String) : String :=
  String.mk (s.data.map Char.toLower)

/-- Lexicographic order on character lists, the model of Rust `Ord` for `String`. -/
def ltChars : List Char → List Char → Bool
  | [], [] => false
  | [], _ :: _ => true
  | _ :: _, [] => false
  | a :: as, b :: bs => if a < b then true else if b < a then false else ltChars as bs

/-- The key order of `BTreeMap<String, _>`. -/
def ltStr (a b : String) : Bool := ltChars a.data b.data

/-- Association-list lookup; model of `HashMap::get` / `BTreeMap::get`. -/
def lookupA {α : Type} : List (String × α) → String → Option α
  | [], _ => none
  | (k, v) :: rest, key => if k = key then some v else lookupA rest key

/-- In-place replacement of the value stored at a key; model of assigning
through `get_mut`. -/
def updateA {α : Type} : List (String × α) → String → α → List (String × α)
  | [], _, _ => []
  | (k, v) :: rest, key, nv => if k = key then (key, nv) :: rest else (k, v) :: updateA rest key nv

/-- Sorted insertion; model of `BTreeMap::insert` on the sorted-list
representation (replaces on an equal key). -/
def insertSorted {α : Type} : List (String × α) → String → α → List (String × α)
  | [], key, nv => [(key, nv)]
  | (k, v) :: rest, key, nv =>
    if ltStr key k then (key, nv) :: (k, v) :: rest
    else if key = k then (key, nv) :: rest
    else (k, v) :: insertSorted rest key nv

/-- `XmlNode` from src/inheritance.rs lines 36-42: one XML element with its
tag, ordered attribute pairs, ordered children and optional text. -/
inductive XmlNode where
  | mk (tag : String) (attributes : List (String × String)) (children : List XmlNode) (text : Option String)

def XmlNode.tag : XmlNode → String
  | .mk t _ _ _ => t

def XmlNode.attributes : XmlNode → List (String × String)
  | .mk _ a _ _ => a

def XmlNode.children : XmlNode → List XmlNode
  | .mk _ _ c _ => c

def XmlNode.text : XmlNode → Option String
  | .mk _ _ _ x => x

mutual

/-- `merge_node` from src/inheritance.rs lines 260-310: fold one node into the
merged mapping.  A present tag with `li` children merges the children
(`mergeChildren`); a present tag without `li` children is replaced wholesale;
an absent tag is inserted as-is. -/
def mergeNode (merged : List (String × XmlNode)) : XmlNode → List (String × XmlNode)
  | XmlNode.mk t a c x =>
    match lookupA merged t with
    | some existing =>
      if c.any (fun ch => ch.tag == "li") then
        updateA merged t (mergeChildren existing c)
      else
        updateA merged t (XmlNode.mk t a c x)
    | none => insertSorted merged t (XmlNode.mk t a c x)
termination_by n => sizeOf n

/-- The `for child in &node.children` loop of the `has_li_children` branch of
`merge_node` (src/inheritance.rs lines 270-301), acting on the existing node:
an `li` child is appended unless an `li` with equal text and equal attribute
list is already among the existing children; a non-`li` child is merged
recursively through a `BTreeMap` built from the existing non-`li` children,
after which the children become the kept `li` items followed by the map
values in key order. -/
def mergeChildren (existing : XmlNode) : List XmlNode → XmlNode
  | [] => existing
  | child :: rest =>
    if child.tag == "li" then
      let dup := existing.children.any (fun c =>
        c.tag == "li" && c.text.getD "" == child.text.getD "" && c.attributes == child.attributes)
      let existing2 :=
        if dup then existing
        else XmlNode.mk existing.tag existing.attributes (existing.children ++ [child]) existing.text
      mergeChildren existing2 rest
    else
      let childMap := (existing.children.filter (fun c => c.tag != "li")).foldl
        (fun m c => insertSorted m c.tag c) []
      let childMap2 := mergeNode childMap child
      let existing2 := XmlNode.mk existing.tag existing.attributes
        (existing.children.filter (fun c => c.tag == "li") ++ childMap2.map Prod.snd) existing.text
      mergeChildren existing2 rest
termination_by cs => sizeOf cs

end

/-- `DefData` from src/inheritance.rs lines 22-34.  The dead fields
`file_path` and `xml_content` (the latter always stored empty, line 436) are
omitted. -/
structure DefData where
  def_name : String
  parent_name : Option String
  is_abstract : Bool
  def_type : String
  raw_nodes : List XmlNode

/-- One event of the `quick_xml` reader as consumed by the Rust event loops:
`start`/`emptyTag`/`text`/`endTag` are `Event::Start/Empty/Text/End` (with
attributes and text already decoded), `eof` is `Event::Eof` and `err` is the
`Err(_)` arm of `read_event_into`. -/
inductive XmlEvent where
  | start (tag : String) (attrs : List (String × String))
  | emptyTag (tag : String) (attrs : List (String × String))
  | text (s : String)
  | endTag (tag : String)
  | eof
  | err

/-- The mutable local state of `parse_def_data` (src/inheritance.rs lines
317-326). -/
structure PState where
  results : List DefData
  insideDefs : Bool
  defDepth : Nat
  currentDefType : Option String
  currentDefName : Option String
  currentParentName : Option String
  isAbstract : Bool
  nodeStack : List XmlNode
  rootNodes : List XmlNode

def initPState : PState :=
  { results := [], insideDefs := false, defDepth := 0, currentDefType := none,
    currentDefName := none, currentParentName := none, isAbstract := false,
    nodeStack := [], rootNodes := [] }

/-- Push a node at the end of a parent's children (`parent.children.push`). -/
def addChild (p n : XmlNode) : XmlNode :=
  XmlNode.mk p.tag p.attributes (p.children ++ [n]) p.text

/-- Store text on a node (`last.text = Some(trimmed)`). -/
def setText (n : XmlNode) (t : String) : XmlNode :=
  XmlNode.mk n.tag n.attributes n.children (some t)

/-- The attribute loop of a def root element (src/inheritance.rs lines
346-357): `Abstract="True"` sets the abstract flag, `ParentName` sets the
parent reference, `Name` sets the record name. -/
def applyDefAttr (s : PState) (kv : String × String) : PState :=
  if kv.1 = "Abstract" ∧ kv.2 = "True" then { s with isAbstract := true }
  else if kv.1 = "ParentName" then { s with currentParentName := some kv.2 }
  else if kv.1 = "Name" then { s with currentDefName := some kv.2 }
  else s

/-- One iteration of the `parse_def_data` event loop (src/inheritance.rs
lines 328-465), transcribed arm by arm.  The node stack is kept with the most
recently opened element at the head. -/
def stepEvent (st : PState) : XmlEvent → PState
  | XmlEvent.start name attrs =>
    if name = "Defs" then { st with insideDefs := true }
    else if st.insideDefs ∧ st.defDepth = 0 ∧ endsWithStr name "Def" then
      let st0 : PState :=
        { st with currentDefType := some name, defDepth := 1, currentDefName := none,
                  currentParentName := none, isAbstract := false, rootNodes := [],
                  nodeStack := [] }
      attrs.foldl applyDefAttr st0
    else if st.defDepth > 0 then
      { st with defDepth := st.defDepth + 1,
                nodeStack := XmlNode.mk name attrs [] none :: st.nodeStack }
    else st
  | XmlEvent.emptyTag name attrs =>
    if st.defDepth > 0 then
      let node := XmlNode.mk name attrs [] none
      match st.nodeStack with
      | parent :: rest => { st with nodeStack := addChild parent node :: rest }
      | [] => { st with rootNodes := st.rootNodes ++ [node] }
    else st
  | XmlEvent.text s =>
    if st.defDepth > 0 then
      match st.nodeStack with
      | top :: rest =>
        let trimmed := trimStr s
        if trimmed = "" then st
        else
          let newName :=
            if top.tag = "defName" ∧ st.currentDefName = none then some trimmed
            else st.currentDefName
          { st with currentDefName := newName, nodeStack := setText top trimmed :: rest }
      | [] => st
    else st
  | XmlEvent.endTag name =>
    let st1 :=
      if st.defDepth > 0 ∧ endsWithStr name "Def" then
        if st.defDepth - 1 = 0 then
          match st.currentDefName with
          | some dn =>
            let rec0 : DefData :=
              { def_name := dn, parent_name := st.currentParentName,
                is_abstract := st.isAbstract,
                def_type := st.currentDefType.getD "",
                raw_nodes := st.rootNodes }
            { st with defDepth := 0, results := st.results ++ [rec0] }
          | none => { st with defDepth := 0 }
        else { st with defDepth := st.defDepth - 1 }
      else if st.defDepth > 0 then
        match st.nodeStack with
        | top :: rest =>
          match rest with
          | p :: rr => { st with defDepth := st.defDepth - 1, nodeStack := addChild p top :: rr }
          | [] => { st with defDepth := st.defDepth - 1, nodeStack := [],
                            rootNodes := st.rootNodes ++ [top] }
        | [] => { st with defDepth := st.defDepth - 1 }
      else st
    if name = "Defs" then { st1 with insideDefs := false } else st1
  | XmlEvent.eof => st
  | XmlEvent.err => st

/-- The `loop` of `parse_def_data`: consume events until `Eof` or a reader
error, then return the records collected so far (the function returns `Ok`
in both cases, src/inheritance.rs lines 460-461 and 467). -/
def parseAux (st : PState) : List XmlEvent → List DefData
  | [] => st.results
  | XmlEvent.eof :: _ => st.results
  | XmlEvent.err :: _ => st.results
  | e :: rest => parseAux (stepEvent st e) rest

/-- `parse_def_data` on one file's event stream. -/
def parseEvents (evs : List XmlEvent) : List DefData :=
  parseAux initPState evs

/-- `parse_def_data` at the file level: `none` is an unreadable file
(`fs::read_to_string` fails, the `?` on line 313 returns `Err`). -/
def parseDefData : Option (List XmlEvent) → Option (List DefData)
  | none => none
  | some evs => some (parseEvents evs)

/-- The parallel scan of `scan_all_defs` (src/inheritance.rs lines 199-203):
per-file results, with failed files dropped by `.ok()`, flattened into one
record list. -/
def scanAllDefs (files : List (Option (List XmlEvent))) : List DefData :=
  (files.filterMap parseDefData).flatten

/-- The `while let` parent walk of `expand_inheritance` (src/inheritance.rs
lines 226-233), with explicit fuel: `chain` already holds the names pushed so
far, the current parent name (if any) is pushed before it is looked up, and
the walk stops when no parent is set or the parent is absent from the index.
A `none` result means the fuel ran out: the Rust loop has no such bound, so
`none` for every fuel value is the embedding of a non-terminating walk. -/
def buildChainAux (defs : List (String × DefData)) :
    Nat → Option String → List String → Option (List String)
  | _, none, chain => some chain
  | 0, some _, _ => none
  | fuel + 1, some parentName, chain =>
    let chain2 := chain ++ [parentName]
    match lookupA defs parentName with
    | some parentDef => buildChainAux defs fuel parentDef.parent_name chain2
    | none => some chain2

/-- One entry of the attribute rendering loops of the serializer
(`for (key, value) in &node.attributes`). -/
def renderAttrs (attrs : List (String × String)) : String :=
  attrs.foldl (fun acc kv => acc ++ " " ++ kv.1 ++ "=\"" ++ kv.2 ++ "\"") ""

/-- `"  ".repeat(indent_level)`. -/
def indentStr (n : Nat) : String :=
  String.join (List.replicate n "  ")

mutual

/-- `generate_node_xml` from src/inheritance.rs lines 491-574: a node with
text and no children on one line, a node with neither on a self-closing
line, and otherwise an indented multi-line block whose childless `li`
children are special-cased onto single lines. -/
def generateNodeXml (node : XmlNode) (level : Nat) : String :=
  match node with
  | XmlNode.mk tg attrs cs tx =>
    let indent := indentStr level
    if cs.isEmpty && tx.isSome then
      let text0 := tx.getD ""
      if attrs.isEmpty then indent ++ "<" ++ tg ++ ">" ++ text0 ++ "</" ++ tg ++ ">\n"
      else indent ++ "<" ++ tg ++ renderAttrs attrs ++ ">" ++ text0 ++ "</" ++ tg ++ ">\n"
    else if cs.isEmpty && !tx.isSome then
      if attrs.isEmpty then indent ++ "<" ++ tg ++ " />\n"
      else indent ++ "<" ++ tg ++ renderAttrs attrs ++ " />\n"
    else
      let openLine :=
        if attrs.isEmpty then indent ++ "<" ++ tg ++ ">\n"
        else indent ++ "<" ++ tg ++ renderAttrs attrs ++ ">\n"
      let textLine :=
        match tx with
        | some text0 => indent ++ "  " ++ text0 ++ "\n"
        | none => ""
      openLine ++ textLine ++ generateChildrenXml cs indent level ++ indent ++ "</" ++ tg ++ ">\n"
termination_by sizeOf node

/-- The child loop of `generate_node_xml` (src/inheritance.rs lines 540-569). -/
def generateChildrenXml (cs : List XmlNode) (indent : String) (level : Nat) : String :=
  match cs with
  | [] => ""
  | child :: rest =>
    let piece :=
      if child.tag == "li" && child.children.isEmpty then
        match child.text with
        | some text0 =>
          if child.attributes.isEmpty then indent ++ "  <li>" ++ text0 ++ "</li>\n"
          else indent ++ "  <li" ++ renderAttrs child.attributes ++ ">" ++ text0 ++ "</li>\n"
        | none =>
          if child.attributes.isEmpty then indent ++ "  <li />\n"
          else indent ++ "  <li" ++ renderAttrs child.attributes ++ " />\n"
      else generateNodeXml child (level + 1)
    piece ++ generateChildrenXml rest indent level
termination_by sizeOf cs

end

/-- `generate_expanded_xml` from src/inheritance.rs lines 470-489: the
record root element, a `defName` line, then every merged node except those
tagged `defName`, in the key order of the merged map. -/
def generateExpandedXml (def_name def_type : String) (nodes : List (String × XmlNode)) : String :=
  "<" ++ def_type ++ ">\n" ++ "  <defName>" ++ def_name ++ "</defName>\n"
  ++ nodes.foldl
      (fun acc kv => if kv.2.tag != "defName" then acc ++ generateNodeXml kv.2 1 else acc) ""
  ++ "</" ++ def_type ++ ">\n"

/-- `expand_inheritance` from src/inheritance.rs lines 217-256 as a function
of the def index and the selected name: build the parent chain, reverse it,
fold every chain member's `raw_nodes` through `merge_node` (absent ancestors
contribute nothing), and serialize.  `none` is returned when the selected
name is not in the index (the Rust method then leaves chain and text empty)
or when the chain walk does not terminate within the given fuel. -/
def expandInheritance (defs : List (String × DefData)) (selected : String) (fuel : Nat) :
    Option (List String × List (String × XmlNode) × String) :=
  match lookupA defs selected with
  | none => none
  | some defData =>
    match buildChainAux defs fuel defData.parent_name [defData.def_name] with
    | none => none
    | some chain0 =>
      let chain := chain0.reverse
      let merged := chain.foldl
        (fun m name =>
          match lookupA defs name with
          | some ancestor => ancestor.raw_nodes.foldl mergeNode m
          | none => m) []
      some (chain, merged, generateExpandedXml selected defData.def_type merged)

/-- The mutable locals of `extract_tag_values` (src/xml_parser.rs lines
16-19); the `HashSet<String>` is modelled as a duplicate-free list in
insertion order. -/
structure EState where
  values : List String
  insideTarget : Bool
  insideLi : Bool

/-- `HashSet::insert`: add the value unless already present. -/
def insertValue (vs : List String) (v : String) : List String :=
  if v ∈ vs then vs else vs ++ [v]

/-- One iteration of the `extract_tag_values` event loop (src/xml_parser.rs
lines 21-66): a start tag equal to the requested name after lowercasing sets
the target flag, an `li` start inside the target sets the li flag, text is
trimmed and collected while either flag is set, and end tags compare
case-sensitively. -/
def extractStep (tagName : String) (st : EState) : XmlEvent → EState
  | XmlEvent.start tag _ =>
    if toLowerStr tag = toLowerStr tagName then { st with insideTarget := true }
    else if tag = "li" ∧ st.insideTarget then { st with insideLi := true }
    else st
  | XmlEvent.text s =>
    let trimmed := trimStr s
    if st.insideLi then
      if trimmed ≠ "" then { st with values := insertValue st.values trimmed } else st
    else if st.insideTarget then
      if trimmed ≠ "" then { st with values := insertValue st.values trimmed } else st
    else st
  | XmlEvent.endTag tag =>
    if tag = tagName then { st with insideTarget := false }
    else if tag = "li" then { st with insideLi := false }
    else st
  | _ => st

/-- The `loop` of `extract_tag_values`: consume events until `Eof` or an
error, then return the collected values. -/
def extractAux (tagName : String) (st : EState) : List XmlEvent → List String
  | [] => st.values
  | XmlEvent.eof :: _ => st.values
  | XmlEvent.err :: _ => st.values
  | e :: rest => extractAux tagName (extractStep tagName st e) rest

/-- `extract_tag_values` from src/xml_parser.rs lines 7-69 on one file's
event stream. -/
def extractTagValues (tagName : String) (evs : List XmlEvent) : List String :=
  extractAux tagName { values := [], insideTarget := false, insideLi := false } evs

/-- The `li`-tagged subsequence of a child list. -/
def filterLi (cs : List XmlNode) : List XmlNode :=
  cs.filter (fun c => c.tag == "li")

/-- The duplicate key of an `li` item used by `merge_node`: its text (absent
text counts as empty, line 275) together with its attribute sequence. -/
def liKey (n : XmlNode) : String × List (String × String) :=
  (n.text.getD "", n.attributes)

/-- Claim-side description of the list-merge policy: fold the incoming `li`
items over the existing ones, appending each at the end unless an item with
the same text and attribute sequence is already present. -/
def liUnion (es ns : List XmlNode) : List XmlNode :=
  ns.foldl
    (fun acc c =>
      if acc.any (fun e => e.text.getD "" == c.text.getD "" && e.attributes == c.attributes)
      then acc else acc ++ [c]) es

/-- The (tag, attributes, text) tuple sequence of a node forest in document
order, each node before its children. -/
def tupleSeq : List XmlNode → List (String × List (String × String) × Option String)
  | [] => []
  | XmlNode.mk t a c x :: rest => (t, a, x) :: (tupleSeq c ++ tupleSeq rest)
termination_by cs => sizeOf cs

/-- The nodes rendered by `generate_expanded_xml` after the `defName` line,
in emission order: the merged map's values in key order with `defName`-tagged
nodes skipped (src/inheritance.rs lines 481-485). -/
def emittedNodes (m : List (String × XmlNode)) : List XmlNode :=
  (m.map Prod.snd).filter (fun nd => nd.tag != "defName")

/-- Folding one record's nodes into an empty merged map: the merge of a
chain of length one (src/inheritance.rs lines 241-247 with a one-element
chain). -/
def mergeList (ns : List XmlNode) : List (String × XmlNode) :=
  ns.foldl mergeNode []

/-- Claim-side description of the values collected by `extract_tag_values`,
with multiplicity and in stream order: a start tag matching the requested
name case-insensitively raises the target flag, an end tag equal to the
requested name (case-sensitively) lowers it, a start of `li` under the
target raises the li flag and an end of `li` lowers it; while either flag is
up, every trimmed non-empty text is listed. -/
def collectSpec (tagName : String) (tFlag liFlag : Bool) : List XmlEvent → List String
  | [] => []
  | XmlEvent.eof :: _ => []
  | XmlEvent.err :: _ => []
  | XmlEvent.start tag _ :: rest =>
    if toLowerStr tag = toLowerStr tagName then collectSpec tagName true liFlag rest
    else if tag = "li" ∧ tFlag then collectSpec tagName tFlag true rest
    else collectSpec tagName tFlag liFlag rest
  | XmlEvent.text s :: rest =>
    if (liFlag || tFlag) && trimStr s ≠ "" then trimStr s :: collectSpec tagName tFlag liFlag rest
    else collectSpec tagName tFlag liFlag rest
  | XmlEvent.endTag tag :: rest =>
    if tag = tagName then collectSpec tagName false liFlag rest
    else if tag = "li" then collectSpec tagName tFlag false rest
    else collectSpec tagName tFlag liFlag rest
  | XmlEvent.emptyTag _ _ :: rest => collectSpec tagName tFlag liFlag rest

/-- Strict sortedness by key of the association-list representation of a
`BTreeMap`. -/
def sortedKeys {α : Type} (m : List (String × α)) : Prop :=
  m.Pairwise (fun p q => ltStr p.1 q.1 = true)

/-- Two records whose parent references form a cycle. -/
def defA : DefData :=
  { def_name := "A", parent_name := some "B", is_abstract := false,
    def_type := "ThingDef", raw_nodes := [] }

def defB : DefData :=
  { def_name := "B", parent_name := some "A", is_abstract := false,
    def_type := "ThingDef", raw_nodes := [] }

/-- A def index in which record A's parent is B and B's parent is A. -/
def cycDefs : List (String × DefData) := [("A", defA), ("B", defB)]

/-- A record whose parent name matches nothing in the index. -/
def c5record : DefData :=
  { def_name := "R", parent_name := some "Ghost", is_abstract := false,
    def_type := "ThingDef", raw_nodes := [] }

/-- Event stream of a parentless record whose two value children appear in
the document order `b` before `a`. -/
def c6events : List XmlEvent :=
  [ XmlEvent.start "Defs" [],
    XmlEvent.start "ThingDef" [],
    XmlEvent.start "defName" [], XmlEvent.text "R", XmlEvent.endTag "defName",
    XmlEvent.start "b" [], XmlEvent.text "x", XmlEvent.endTag "b",
    XmlEvent.start "a" [], XmlEvent.text "y", XmlEvent.endTag "a",
    XmlEvent.endTag "ThingDef", XmlEvent.endTag "Defs", XmlEvent.eof ]

/-- The record extracted from `c6events`. -/
def c6record : DefData :=
  { def_name := "R", parent_name := none, is_abstract := false,
    def_type := "ThingDef",
    raw_nodes := [XmlNode.mk "defName" [] [] (some "R"),
                  XmlNode.mk "b" [] [] (some "x"),
                  XmlNode.mk "a" [] [] (some "y")] }

/-- The merged map produced for `c6record`: the `BTreeMap` stores the three
nodes in key order. -/
def c6merged : List (String × XmlNode) :=
  [("a", XmlNode.mk "a" [] [] (some "y")),
   ("b", XmlNode.mk "b" [] [] (some "x")),
   ("defName", XmlNode.mk "defName" [] [] (some "R"))]

/-- Event stream of one def root carrying an optional `Name` attribute and an
optional `Abstract="True"` attribute, with a `defName` child holding text
`d`. -/
def c7events (nm : Option String) (ab : Bool) (d : String) : List XmlEvent :=
  [ XmlEvent.start "Defs" [],
    XmlEvent.start "ThingDef"
      ((if ab then [("Abstract", "True")] else []) ++
       (match nm with | some v => [("Name", v)] | none => [])),
    XmlEvent.start "defName" [], XmlEvent.text d, XmlEvent.endTag "defName",
    XmlEvent.endTag "ThingDef", XmlEvent.endTag "Defs", XmlEvent.eof ]

/-- Event stream in which an element matching the requested tag name only
case-insensitively (`Foo` for `foo`) opens and closes, and text appears
afterwards in an unrelated element. -/
def c9events : List XmlEvent :=
  [ XmlEvent.start "Foo" [], XmlEvent.endTag "Foo",
    XmlEvent.start "bar" [], XmlEvent.text "leak", XmlEvent.endTag "bar",
    XmlEvent.eof ]

/-- Three-level witness chain: Root has no parent, Mid's parent is Root,
Leaf's parent is Mid. -/
def w4root : DefData :=
  { def_name := "Root", parent_name := none, is_abstract := false,
    def_type := "ThingDef", raw_nodes := [XmlNode.mk "label" [] [] (some "r")] }

def w4mid : DefData :=
  { def_name := "Mid", parent_name := some "Root", is_abstract := true,
    def_type := "ThingDef", raw_nodes := [XmlNode.mk "label" [] [] (some "m")] }

def w4leaf : DefData :=
  { def_name := "Leaf", parent_name := some "Mid", is_abstract := false,
    def_type := "ThingDef", raw_nodes := [XmlNode.mk "label" [] [] (some "l")] }

def w4defs : List (String × DefData) :=
  [("Root", w4root), ("Mid", w4mid), ("Leaf", w4leaf)]

theorem lookupA_mem {α : Type} {m : List (String × α)} {k : String} {v : α}
    (h : lookupA m k = some v) : (k, v) ∈ m := by
  induction m with
  | nil => simp [lookupA] at h
  | cons p rest ih =>
    obtain ⟨k0, v0⟩ := p
    by_cases hk : k0 = k
    · subst hk
      simp [lookupA] at h
      simp [h]
    · simp only [lookupA, if_neg hk] at h
      exact List.mem_cons_of_mem _ (ih h)

theorem lookupA_updateA_self {α : Type} {m : List (String × α)} {k : String} {v0 : α}
    (v : α) (h : lookupA m k = some v0) : lookupA (updateA m k v) k = some v := by
  induction m with
  | nil => simp [lookupA] at h
  | cons p rest ih =>
    obtain ⟨k0, v1⟩ := p
    by_cases hk : k0 = k
    · subst hk
      simp [updateA, lookupA]
    · simp only [lookupA, if_neg hk] at h
      simp only [updateA, if_neg hk, lookupA, if_neg hk]
      exact ih h

theorem lookupA_none_iff {α : Type} {m : List (String × α)} {k : String} :
    lookupA m k = none ↔ k ∉ m.map Prod.fst := by
  induction m with
  | nil => simp [lookupA]
  | cons p rest ih =>
    obtain ⟨k0, v0⟩ := p
    by_cases hk : k0 = k
    · subst hk; simp [lookupA]
    · simp [lookupA, hk, ih, Ne.symm hk]

theorem mem_updateA {α : Type} {m : List (String × α)} {k : String} {v : α} {p : String × α}
    (h : p ∈ updateA m k v) : p ∈ m ∨ p = (k, v) := by
  induction m with
  | nil => simp [updateA] at h
  | cons q rest ih =>
    obtain ⟨k0, v0⟩ := q
    by_cases hk : k0 = k
    · subst hk
      simp only [updateA, if_pos rfl] at h
      rcases List.mem_cons.mp h with h1 | h1
      · right; exact h1
      · left; exact List.mem_cons_of_mem _ h1
    · simp only [updateA, if_neg hk] at h
      rcases List.mem_cons.mp h with h1 | h1
      · left; simp [h1]
      · rcases ih h1 with h2 | h2
        · left; exact List.mem_cons_of_mem _ h2
        · right; exact h2

theorem mem_insertSorted {α : Type} {m : List (String × α)} {k : String} {v : α}
    {p : String × α} (h : p ∈ insertSorted m k v) : p ∈ m ∨ p = (k, v) := by
  induction m with
  | nil => simp [insertSorted] at h; right; exact h
  | cons q rest ih =>
    obtain ⟨k0, v0⟩ := q
    simp only [insertSorted] at h
    split at h
    · rcases List.mem_cons.mp h with h1 | h1
      · right; exact h1
      · left; exact h1
    · split at h
      · rcases List.mem_cons.mp h with h1 | h1
        · right; exact h1
        · left; exact List.mem_cons_of_mem _ h1
      · rcases List.mem_cons.mp h with h1 | h1
        · left; simp [h1]
        · rcases ih h1 with h2 | h2
          · left; exact List.mem_cons_of_mem _ h2
          · right; exact h2

theorem ltChars_connex : ∀ (as bs : List Char),
    ltChars as bs = false → ltChars bs as = false → as = bs := by
  intro as
  induction as with
  | nil =>
    intro bs h1 _
    cases bs with
    | nil => rfl
    | cons b bs => simp [ltChars] at h1
  | cons a as ih =>
    intro bs h1 h2
    cases bs with
    | nil => simp [ltChars] at h2
    | cons b bs =>
      simp only [ltChars] at h1 h2
      by_cases hab : a < b
      · simp [hab] at h1
      · by_cases hba : b < a
        · simp [hab, hba] at h2
        · have hab2 : a = b := le_antisymm (not_lt.mp hba) (not_lt.mp hab)
          subst hab2
          simp [lt_irrefl] at h1 h2
          rw [ih bs h1 h2]

theorem ltChars_trans : ∀ (as bs cs : List Char),
    ltChars as bs = true → ltChars bs cs = true → ltChars as cs = true := by
  intro as
  induction as with
  | nil =>
    intro bs cs h1 h2
    cases bs with
    | nil => simp [ltChars] at h1
    | cons b bs =>
      cases cs with
      | nil => simp [ltChars] at h2
      | cons c cs => simp [ltChars]
  | cons a as ih =>
    intro bs cs h1 h2
    cases bs with
    | nil => simp [ltChars] at h1
    | cons b bs =>
      cases cs with
      | nil => simp [ltChars] at h2
      | cons c cs =>
        simp only [ltChars] at h1 h2 ⊢
        by_cases hab : a < b
        · by_cases hbc : b < c
          · simp [lt_trans hab hbc]
          · by_cases hcb : c < b
            · simp [hbc, hcb] at h2
            · have hbc2 : b = c := le_antisymm (not_lt.mp hcb) (not_lt.mp hbc)
              subst hbc2
              simp [hab]
        · by_cases hba : b < a
          · simp [hab, hba] at h1
          · have hab2 : a = b := le_antisymm (not_lt.mp hba) (not_lt.mp hab)
            subst hab2
            simp [lt_irrefl] at h1
            by_cases hac : a < c
            · simp [hac]
            · by_cases hca : c < a
              · simp [hac, hca] at h2
              · have hac2 : a = c := le_antisymm (not_lt.mp hca) (not_lt.mp hac)
                subst hac2
                simp only [lt_irrefl, if_false]
                simp [lt_irrefl] at h2
                exact ih bs cs h1 h2

theorem ltStr_trans {a b c : String} (h1 : ltStr a b = true) (h2 : ltStr b c = true) :
    ltStr a c = true :=
  ltChars_trans _ _ _ h1 h2

theorem ltStr_of_not {a b : String} (h1 : ltStr a b = false) (h2 : ¬ a = b) :
    ltStr b a = true := by
  cases hba : ltStr b a
  · exfalso
    apply h2
    have h3 := ltChars_connex a.data b.data h1 hba
    cases a
    cases b
    simp only at h3
    exact congrArg String.mk h3
  · rfl

theorem sortedKeys_insertSorted {α : Type} {m : List (String × α)} {k : String} {v : α}
    (h : sortedKeys m) : sortedKeys (insertSorted m k v) := by
  induction m with
  | nil => simp [insertSorted, sortedKeys]
  | cons p rest ih =>
    obtain ⟨k0, v0⟩ := p
    simp only [sortedKeys, List.pairwise_cons] at h
    obtain ⟨hall, hrest⟩ := h
    simp only [insertSorted]
    split
    · rename_i hlt
      simp only [sortedKeys, List.pairwise_cons]
      refine ⟨?_, ?_, hrest⟩
      · intro q hq
        rcases List.mem_cons.mp hq with h1 | h1
        · rw [h1]; exact hlt
        · exact ltStr_trans hlt (hall q h1)
      · exact hall
    · split
      · rename_i hlt heq
        subst heq
        exact List.Pairwise.cons (fun q hq => hall q hq) hrest
      · rename_i hlt hne
        simp only [sortedKeys, List.pairwise_cons]
        constructor
        · intro q hq
          rcases mem_insertSorted hq with h1 | h1
          · exact hall q h1
          · rw [h1]
            exact ltStr_of_not (by simpa using hlt) hne
        · exact ih hrest

theorem insertSorted_perm {α : Type} {m : List (String × α)} {k : String} (v : α)
    (h : lookupA m k = none) : List.Perm (insertSorted m k v) ((k, v) :: m) := by
  induction m with
  | nil => simp [insertSorted]
  | cons p rest ih =>
    obtain ⟨k0, v0⟩ := p
    have hk : ¬ k0 = k := by
      intro he
      subst he
      simp [lookupA] at h
    have h2 : lookupA rest k = none := by simpa [lookupA, hk] using h
    simp only [insertSorted]
    split
    · exact List.Perm.refl _
    · split
      · rename_i _ heq
        exact absurd heq.symm hk
      · exact (List.Perm.cons _ (ih h2)).trans (List.Perm.swap _ _ _)

theorem any_filter_eq {α : Type} (l : List α) (p q : α → Bool) :
    (l.filter p).any q = l.any (fun x => p x && q x) := by
  induction l with
  | nil => rfl
  | cons a l ih =>
    by_cases h : p a = true
    · simp [List.filter_cons, h, ih]
    · simp [List.filter_cons, h, ih]

theorem any_li_bridge {l : List XmlNode} {child : XmlNode} :
    l.any (fun c =>
      c.tag == "li" && c.text.getD "" == child.text.getD "" && c.attributes == child.attributes)
      = (filterLi l).any (fun e =>
          e.text.getD "" == child.text.getD "" && e.attributes == child.attributes) := by
  rw [filterLi, any_filter_eq]
  simp [Bool.and_assoc]

theorem filterLi_append {l1 l2 : List XmlNode} :
    filterLi (l1 ++ l2) = filterLi l1 ++ filterLi l2 := by
  simp [filterLi, List.filter_append]

theorem mergeChildren_frame : ∀ (cs : List XmlNode) (E : XmlNode),
    (mergeChildren E cs).tag = E.tag ∧ (mergeChildren E cs).attributes = E.attributes ∧
      (mergeChildren E cs).text = E.text := by
  intro cs
  induction cs with
  | nil => intro E; simp [mergeChildren]
  | cons child rest ih =>
    intro E
    have key : ∀ E2 : XmlNode, E2.tag = E.tag → E2.attributes = E.attributes →
        E2.text = E.text → (mergeChildren E2 rest).tag = E.tag ∧
          (mergeChildren E2 rest).attributes = E.attributes ∧
          (mergeChildren E2 rest).text = E.text := by
      intro E2 h1 h2 h3
      obtain ⟨a1, a2, a3⟩ := ih E2
      exact ⟨a1.trans h1, a2.trans h2, a3.trans h3⟩
    simp only [mergeChildren]
    split
    · split
      · exact key _ rfl rfl rfl
      · exact key _ rfl rfl rfl
    · exact key _ rfl rfl rfl

theorem childMap_tags {l : List XmlNode} :
    ∀ {m0 : List (String × XmlNode)}, (∀ p ∈ m0, (p.2).tag ≠ "li") →
      (∀ c ∈ l, c.tag ≠ "li") →
      ∀ p ∈ l.foldl (fun m c => insertSorted m c.tag c) m0, (p.2).tag ≠ "li" := by
  induction l with
  | nil => intro m0 h0 _; exact h0
  | cons c l ih =>
    intro m0 h0 hl p hp
    simp only [List.foldl_cons] at hp
    refine ih ?_ (fun d hd => hl d (List.mem_cons_of_mem _ hd)) p hp
    intro q hq
    rcases mem_insertSorted hq with h1 | h1
    · exact h0 q h1
    · rw [h1]
      exact hl c (List.mem_cons_self c l)

theorem mergeNode_snd_tag {m : List (String × XmlNode)} {n : XmlNode}
    (h0 : ∀ p ∈ m, (p.2).tag ≠ "li") (hn : n.tag ≠ "li") :
    ∀ p ∈ mergeNode m n, (p.2).tag ≠ "li" := by
  obtain ⟨t, a, c, x⟩ := n
  simp only [XmlNode.tag] at hn
  intro p hp
  simp only [mergeNode] at hp
  cases hl : lookupA m t with
  | some existing =>
    simp only [hl] at hp
    split at hp
    · rcases mem_updateA hp with h1 | h1
      · exact h0 p h1
      · rw [h1]
        have hfr := (mergeChildren_frame c existing).1
        simp only [hfr]
        exact h0 (t, existing) (lookupA_mem hl)
    · rcases mem_updateA hp with h1 | h1
      · exact h0 p h1
      · rw [h1]
        simpa [XmlNode.tag] using hn
  | none =>
    simp only [hl] at hp
    rcases mem_insertSorted hp with h1 | h1
    · exact h0 p h1
    · rw [h1]
      simpa [XmlNode.tag] using hn

theorem XmlNode_tag_mk (t : String) (a : List (String × String)) (c : List XmlNode)
    (x : Option String) : (XmlNode.mk t a c x).tag = t := rfl

theorem XmlNode_attributes_mk (t : String) (a : List (String × String)) (c : List XmlNode)
    (x : Option String) : (XmlNode.mk t a c x).attributes = a := rfl

theorem XmlNode_children_mk (t : String) (a : List (String × String)) (c : List XmlNode)
    (x : Option String) : (XmlNode.mk t a c x).children = c := rfl

theorem XmlNode_text_mk (t : String) (a : List (String × String)) (c : List XmlNode)
    (x : Option String) : (XmlNode.mk t a c x).text = x := rfl

theorem mergeChildren_filterLi : ∀ (cs : List XmlNode) (E : XmlNode),
    filterLi (mergeChildren E cs).children = liUnion (filterLi E.children) (filterLi cs) := by
  intro cs
  induction cs with
  | nil => intro E; simp [mergeChildren, filterLi, liUnion]
  | cons child rest ih =>
    intro E
    obtain ⟨et, ea, ec, ex⟩ := E
    simp only [mergeChildren, XmlNode_children_mk]
    split
    · rename_i hli
      have hcons : filterLi (child :: rest) = child :: filterLi rest := by
        simp [filterLi, List.filter_cons, hli]
      split
      · rename_i hdup
        rw [ih _, hcons]
        simp only [XmlNode_children_mk]
        have hstep : (filterLi ec).any (fun e =>
            e.text.getD "" == child.text.getD "" && e.attributes == child.attributes) = true := by
          rw [← any_li_bridge]
          exact hdup
        simp only [liUnion, List.foldl_cons, hstep, if_true]
      · rename_i hdup
        rw [ih _, hcons]
        simp only [XmlNode_tag_mk, XmlNode_attributes_mk, XmlNode_children_mk, XmlNode_text_mk]
        have hstep : (filterLi ec).any (fun e =>
            e.text.getD "" == child.text.getD "" && e.attributes == child.attributes) = false := by
          rw [← any_li_bridge]
          simpa using hdup
        have hone : filterLi [child] = [child] := by simp [filterLi, List.filter_cons, hli]
        simp only [liUnion, List.foldl_cons, hstep, Bool.false_eq_true, if_false,
          filterLi_append, hone]
    · rename_i hli
      have hcons : filterLi (child :: rest) = filterLi rest := by
        simp [filterLi, List.filter_cons, hli]
      rw [ih _, hcons]
      simp only [XmlNode_tag_mk, XmlNode_attributes_mk, XmlNode_children_mk, XmlNode_text_mk]
      have h1 : filterLi (ec.filter (fun c => c.tag == "li")) = filterLi ec := by
        simp [filterLi, List.filter_filter]
      have h2 : filterLi ((mergeNode ((ec.filter (fun c => c.tag != "li")).foldl
          (fun m c => insertSorted m c.tag c) []) child).map Prod.snd) = [] := by
        rw [filterLi, List.filter_eq_nil_iff]
        intro nd hnd
        rcases List.mem_map.mp hnd with ⟨p, hp, hpe⟩
        have hbase : ∀ q ∈ ((ec.filter (fun c => c.tag != "li")).foldl
            (fun m c => insertSorted m c.tag c) []), ((q.2).tag ≠ "li") := by
          refine childMap_tags (by simp) ?_
          intro d hd
          have := List.of_mem_filter hd
          simpa using this
        have hctag : child.tag ≠ "li" := by simpa using hli
        have hres := mergeNode_snd_tag hbase hctag p hp
        rw [hpe] at hres
        simpa using hres
      rw [filterLi_append, h1, h2, List.append_nil]

theorem liUnion_cons (es : List XmlNode) (c : XmlNode) (ns : List XmlNode) :
    liUnion es (c :: ns) = liUnion
      (if es.any (fun e => e.text.getD "" == c.text.getD "" && e.attributes == c.attributes)
       then es else es ++ [c]) ns := rfl

theorem pred_iff_liKey {e c : XmlNode} :
    (e.text.getD "" == c.text.getD "" && e.attributes == c.attributes) = true ↔
      liKey e = liKey c := by
  simp [liKey, Prod.ext_iff]

theorem mem_liUnion_left : ∀ (ns : List XmlNode) {es : List XmlNode} {v : XmlNode},
    v ∈ es → v ∈ liUnion es ns := by
  intro ns
  induction ns with
  | nil => intro es v hv; simpa [liUnion] using hv
  | cons c ns ih =>
    intro es v hv
    rw [liUnion_cons]
    apply ih
    split
    · exact hv
    · exact List.mem_append_left _ hv

theorem key_mem_liUnion_left {ns es : List XmlNode} {v : XmlNode} (hv : v ∈ es) :
    liKey v ∈ (liUnion es ns).map liKey :=
  List.mem_map.mpr ⟨v, mem_liUnion_left ns hv, rfl⟩

theorem key_mem_liUnion_right : ∀ (ns : List XmlNode) (es : List XmlNode) {c : XmlNode},
    c ∈ ns → liKey c ∈ (liUnion es ns).map liKey := by
  intro ns
  induction ns with
  | nil => intro es c hc; simp at hc
  | cons c0 ns ih =>
    intro es c hc
    rw [liUnion_cons]
    rcases List.mem_cons.mp hc with h1 | h1
    · subst h1
      by_cases hany : es.any (fun e =>
          e.text.getD "" == c.text.getD "" && e.attributes == c.attributes) = true
      · rcases List.any_eq_true.mp hany with ⟨e, he, hpe⟩
        have hk : liKey e = liKey c := pred_iff_liKey.mp hpe
        rw [if_pos hany, ← hk]
        exact key_mem_liUnion_left he
      · rw [if_neg hany]
        exact key_mem_liUnion_left (List.mem_append_right _ (List.mem_singleton.mpr rfl))
    · exact ih _ h1

theorem liUnion_nodup_keys : ∀ (ns es : List XmlNode),
    (es.map liKey).Nodup → ((liUnion es ns).map liKey).Nodup := by
  intro ns
  induction ns with
  | nil => intro es h; simpa [liUnion] using h
  | cons c ns ih =>
    intro es h
    rw [liUnion_cons]
    apply ih
    split
    · exact h
    · rename_i hany
      have hnotin : liKey c ∉ es.map liKey := by
        intro hin
        rcases List.mem_map.mp hin with ⟨e, he, hke⟩
        apply hany
        exact List.any_eq_true.mpr ⟨e, he, pred_iff_liKey.mpr hke⟩
      simp [List.nodup_append, h, hnotin]

/-- C3: when the incoming node's tag is already present in the merged mapping
and the incoming node has no `li` child, the stored entry is replaced
wholesale by the incoming node — text, attributes and children all come from
it and nothing of the previous value remains. -/
theorem scalar_override_replaces_wholesale {m : List (String × XmlNode)} {t : String}
    {E : XmlNode} {a : List (String × String)} {c : List XmlNode} {x : Option String}
    (hE : lookupA m t = some E) (hli : c.any (fun ch => ch.tag == "li") = false) :
    lookupA (mergeNode m (XmlNode.mk t a c x)) t = some (XmlNode.mk t a c x) := by
  simp only [mergeNode, hE, hli, Bool.false_eq_true, if_false]
  exact lookupA_updateA_self _ hE

theorem scalar_override_witness :
    lookupA [("label", XmlNode.mk "label" [] [] (some "foo"))] "label"
        = some (XmlNode.mk "label" [] [] (some "foo")) ∧
    lookupA (mergeNode [("label", XmlNode.mk "label" [] [] (some "foo"))]
        (XmlNode.mk "label" [] [] (some "bar"))) "label"
        = some (XmlNode.mk "label" [] [] (some "bar")) :=
  ⟨rfl, scalar_override_replaces_wholesale rfl rfl⟩

/-- C10: in the list-field branch (incoming node has an `li` child and its tag
is already present), only the children of the stored node change: its tag,
attributes and text are kept, and the incoming node's own attributes and text
do not influence the result at all. -/
theorem list_field_frame {m : List (String × XmlNode)} {t : String} {E : XmlNode}
    {a a2 : List (String × String)} {c : List XmlNode} {x x2 : Option String}
    (hE : lookupA m t = some E) (hli : c.any (fun ch => ch.tag == "li") = true) :
    lookupA (mergeNode m (XmlNode.mk t a c x)) t = some (mergeChildren E c) ∧
    (mergeChildren E c).tag = E.tag ∧ (mergeChildren E c).attributes = E.attributes ∧
    (mergeChildren E c).text = E.text ∧
    mergeNode m (XmlNode.mk t a c x) = mergeNode m (XmlNode.mk t a2 c x2) := by
  obtain ⟨f1, f2, f3⟩ := mergeChildren_frame c E
  refine ⟨?_, f1, f2, f3, ?_⟩
  · simp only [mergeNode, hE, hli, if_true]
    exact lookupA_updateA_self _ hE
  · simp only [mergeNode, hE, hli, if_true]

theorem list_field_frame_witness :
    lookupA [("tags", XmlNode.mk "tags" [("keep", "1")] [XmlNode.mk "li" [] [] (some "x")]
        (some "T"))] "tags"
      = some (XmlNode.mk "tags" [("keep", "1")] [XmlNode.mk "li" [] [] (some "x")] (some "T")) ∧
    ([XmlNode.mk "li" [] [] (some "y")].any (fun ch => ch.tag == "li") = true) ∧
    (lookupA (mergeNode [("tags", XmlNode.mk "tags" [("keep", "1")]
          [XmlNode.mk "li" [] [] (some "x")] (some "T"))]
          (XmlNode.mk "tags" [("drop", "2")] [XmlNode.mk "li" [] [] (some "y")] (some "gone")))
        "tags" = some (mergeChildren (XmlNode.mk "tags" [("keep", "1")]
          [XmlNode.mk "li" [] [] (some "x")] (some "T")) [XmlNode.mk "li" [] [] (some "y")]) ∧
      (mergeChildren (XmlNode.mk "tags" [("keep", "1")] [XmlNode.mk "li" [] [] (some "x")]
          (some "T")) [XmlNode.mk "li" [] [] (some "y")]).tag
        = (XmlNode.mk "tags" [("keep", "1")] [XmlNode.mk "li" [] [] (some "x")] (some "T")).tag ∧
      (mergeChildren (XmlNode.mk "tags" [("keep", "1")] [XmlNode.mk "li" [] [] (some "x")]
          (some "T")) [XmlNode.mk "li" [] [] (some "y")]).attributes
        = (XmlNode.mk "tags" [("keep", "1")] [XmlNode.mk "li" [] [] (some "x")]
            (some "T")).attributes ∧
      (mergeChildren (XmlNode.mk "tags" [("keep", "1")] [XmlNode.mk "li" [] [] (some "x")]
          (some "T")) [XmlNode.mk "li" [] [] (some "y")]).text
        = (XmlNode.mk "tags" [("keep", "1")] [XmlNode.mk "li" [] [] (some "x")] (some "T")).text ∧
      mergeNode [("tags", XmlNode.mk "tags" [("keep", "1")]
          [XmlNode.mk "li" [] [] (some "x")] (some "T"))]
          (XmlNode.mk "tags" [("drop", "2")] [XmlNode.mk "li" [] [] (some "y")] (some "gone"))
        = mergeNode [("tags", XmlNode.mk "tags" [("keep", "1")]
            [XmlNode.mk "li" [] [] (some "x")] (some "T"))]
            (XmlNode.mk "tags" [] [XmlNode.mk "li" [] [] (some "y")] none)) :=
  ⟨rfl, rfl, list_field_frame rfl rfl⟩

theorem count_one_of_nodup_mem {α : Type} [BEq α] [LawfulBEq α] {l : List α} {a : α}
    (h : l.Nodup) (ha : a ∈ l) : l.count a = 1 := by
  induction l with
  | nil => simp at ha
  | cons b l ih =>
    rcases List.nodup_cons.mp h with ⟨hb, hl⟩
    rcases List.mem_cons.mp ha with h1 | h1
    · subst h1
      rw [List.count_cons_self]
      rw [List.count_eq_zero_of_not_mem hb]
    · have hne : a ≠ b := by
        intro he
        subst he
        exact hb h1
      rw [List.count_cons_of_ne hne]
      exact ih hl h1

/-- C2: merging a node that has `li` children into an existing entry of the
same tag unions the `li` items: the existing `li` items stay first in their
original order, each incoming `li` item is appended at the end unless an item
with the same text and attribute sequence is already there, and when the
existing items are duplicate-free every (text, attributes) value present on
either side occurs exactly once in the result. -/
theorem list_merge_li_union {m : List (String × XmlNode)} {t : String} {E : XmlNode}
    {a : List (String × String)} {c : List XmlNode} {x : Option String}
    (hE : lookupA m t = some E) (hli : c.any (fun ch => ch.tag == "li") = true) :
    ∃ R, lookupA (mergeNode m (XmlNode.mk t a c x)) t = some R ∧
      filterLi R.children = liUnion (filterLi E.children) (filterLi c) ∧
      (((filterLi E.children).map liKey).Nodup →
        ((filterLi R.children).map liKey).Nodup ∧
        ∀ v ∈ filterLi E.children ++ filterLi c,
          ((filterLi R.children).map liKey).count (liKey v) = 1) := by
  refine ⟨mergeChildren E c, ?_, mergeChildren_filterLi c E, ?_⟩
  · simp only [mergeNode, hE, hli, if_true]
    exact lookupA_updateA_self _ hE
  · intro hnd
    rw [mergeChildren_filterLi c E]
    refine ⟨liUnion_nodup_keys _ _ hnd, ?_⟩
    intro v hv
    apply count_one_of_nodup_mem (liUnion_nodup_keys _ _ hnd)
    rcases List.mem_append.mp hv with h1 | h1
    · exact key_mem_liUnion_left h1
    · exact key_mem_liUnion_right _ _ h1

theorem list_merge_li_union_witness :
    (lookupA [("tags", XmlNode.mk "tags" [] [XmlNode.mk "li" [] [] (some "x")] none)] "tags"
      = some (XmlNode.mk "tags" [] [XmlNode.mk "li" [] [] (some "x")] none)) ∧
    ([XmlNode.mk "li" [] [] (some "x"), XmlNode.mk "li" [] [] (some "y")].any
        (fun ch => ch.tag == "li") = true) ∧
    (∃ R, lookupA (mergeNode
          [("tags", XmlNode.mk "tags" [] [XmlNode.mk "li" [] [] (some "x")] none)]
          (XmlNode.mk "tags" []
            [XmlNode.mk "li" [] [] (some "x"), XmlNode.mk "li" [] [] (some "y")] none))
        "tags" = some R ∧
      filterLi R.children = liUnion
        (filterLi (XmlNode.mk "tags" [] [XmlNode.mk "li" [] [] (some "x")] none).children)
        (filterLi [XmlNode.mk "li" [] [] (some "x"), XmlNode.mk "li" [] [] (some "y")]) ∧
      ((((filterLi (XmlNode.mk "tags" [] [XmlNode.mk "li" [] [] (some "x")]
            none).children).map liKey).Nodup →
        ((filterLi R.children).map liKey).Nodup ∧
        ∀ v ∈ filterLi (XmlNode.mk "tags" [] [XmlNode.mk "li" [] [] (some "x")] none).children
            ++ filterLi [XmlNode.mk "li" [] [] (some "x"), XmlNode.mk "li" [] [] (some "y")],
          ((filterLi R.children).map liKey).count (liKey v) = 1))) :=
  ⟨rfl, rfl, list_merge_li_union rfl rfl⟩

theorem buildChainAux_cyc : ∀ (fuel : Nat) (chain : List String),
    buildChainAux cycDefs fuel (some "A") chain = none ∧
    buildChainAux cycDefs fuel (some "B") chain = none := by
  intro fuel
  induction fuel with
  | zero => intro chain; exact ⟨rfl, rfl⟩
  | succ n ih =>
    intro chain
    constructor
    · simp only [buildChainAux]
      have h1 : lookupA cycDefs "A" = some defA := rfl
      simp only [h1]
      have h2 : defA.parent_name = some "B" := rfl
      simp only [h2]
      exact (ih _).2
    · simp only [buildChainAux]
      have h1 : lookupA cycDefs "B" = some defB := rfl
      simp only [h1]
      have h2 : defB.parent_name = some "A" := rfl
      simp only [h2]
      exact (ih _).1

/-- C1: on the cyclic index (A's parent is B, B's parent is A) the parent
walk of `expand_inheritance` never finishes: for every fuel bound the
embedded walk runs out of fuel, so resolution neither terminates nor reports
a cycle failure — the Rust loop runs forever. -/
theorem inheritance_cycle_nonterminating : ∀ fuel : Nat,
    expandInheritance cycDefs "A" fuel = none := by
  intro fuel
  simp only [expandInheritance]
  have h1 : lookupA cycDefs "A" = some defA := rfl
  simp only [h1]
  have h2 : defA.parent_name = some "B" := rfl
  have h3 : defA.def_name = "A" := rfl
  simp only [h2, h3]
  rw [(buildChainAux_cyc fuel ["A"]).2]

/-- C4: for an index holding Leaf with parent Mid, Mid with parent Root and
parentless Root, resolving Leaf yields exactly the chain [Root, Mid, Leaf]
and the merge folds Root's nodes first, then Mid's, then Leaf's. -/
theorem chain_three_level {defs : List (String × DefData)} {ln mn rn : String}
    {L M R : DefData}
    (hL : lookupA defs ln = some L) (hLn : L.def_name = ln) (hLp : L.parent_name = some mn)
    (hM : lookupA defs mn = some M) (hMp : M.parent_name = some rn)
    (hR : lookupA defs rn = some R) (hRp : R.parent_name = none) :
    ∀ fuel : Nat,
      expandInheritance defs ln (fuel + 1 + 1) =
        some ([rn, mn, ln],
          L.raw_nodes.foldl mergeNode (M.raw_nodes.foldl mergeNode
            (R.raw_nodes.foldl mergeNode [])),
          generateExpandedXml ln L.def_type
            (L.raw_nodes.foldl mergeNode (M.raw_nodes.foldl mergeNode
              (R.raw_nodes.foldl mergeNode [])))) := by
  intro fuel
  simp only [expandInheritance, hL, hLn, hLp]
  have hchain : buildChainAux defs (fuel + 1 + 1) (some mn) [ln] = some [ln, mn, rn] := by
    simp [buildChainAux, hM, hMp, hR, hRp]
  rw [hchain]
  simp [hR, hM, hL]

/-- C5 counterexample: a record R whose `ParentName` is the unknown name
Ghost resolves to the two-element chain [Ghost, R], not to the one-element
chain [R] stated by the claim — the parent name is pushed before the failed
lookup. -/
theorem missing_parent_counterexample :
    (expandInheritance [("R", c5record)] "R" 1).map (fun t => t.1) = some ["Ghost", "R"] ∧
    some ["Ghost", "R"] ≠ some (["R"] : List String) := by
  constructor
  · rfl
  · simp

/-- C5 as corrected: a record whose `ParentName` misses the index resolves,
without error, to the two-element chain [missing parent name, own name]; the
unresolved ancestor contributes nothing to the merge, which folds only the
record's own nodes. -/
theorem missing_parent_two_element_chain {defs : List (String × DefData)} {name p : String}
    {D : DefData} (hD : lookupA defs name = some D) (hDn : D.def_name = name)
    (hDp : D.parent_name = some p) (hp : lookupA defs p = none) :
    ∀ fuel : Nat,
      expandInheritance defs name (fuel + 1) =
        some ([p, name], D.raw_nodes.foldl mergeNode [],
          generateExpandedXml name D.def_type (D.raw_nodes.foldl mergeNode [])) := by
  intro fuel
  simp only [expandInheritance, hD, hDn, hDp]
  have hchain : buildChainAux defs (fuel + 1) (some p) [name] = some [name, p] := by
    simp [buildChainAux, hp]
  rw [hchain]
  simp [hp, hD]

theorem chain_three_level_witness :
    lookupA w4defs "Leaf" = some w4leaf ∧ w4leaf.def_name = "Leaf" ∧
    w4leaf.parent_name = some "Mid" ∧ lookupA w4defs "Mid" = some w4mid ∧
    w4mid.parent_name = some "Root" ∧ lookupA w4defs "Root" = some w4root ∧
    w4root.parent_name = none ∧
    expandInheritance w4defs "Leaf" (0 + 1 + 1) =
      some (["Root", "Mid", "Leaf"],
        w4leaf.raw_nodes.foldl mergeNode (w4mid.raw_nodes.foldl mergeNode
          (w4root.raw_nodes.foldl mergeNode [])),
        generateExpandedXml "Leaf" w4leaf.def_type
          (w4leaf.raw_nodes.foldl mergeNode (w4mid.raw_nodes.foldl mergeNode
            (w4root.raw_nodes.foldl mergeNode [])))) :=
  ⟨rfl, rfl, rfl, rfl, rfl, rfl, rfl,
    @chain_three_level w4defs "Leaf" "Mid" "Root" w4leaf w4mid w4root
      rfl rfl rfl rfl rfl rfl rfl 0⟩

theorem missing_parent_witness :
    lookupA [("R", c5record)] "R" = some c5record ∧ c5record.def_name = "R" ∧
    c5record.parent_name = some "Ghost" ∧ lookupA [("R", c5record)] "Ghost" = none ∧
    expandInheritance [("R", c5record)] "R" (0 + 1) =
      some (["Ghost", "R"], c5record.raw_nodes.foldl mergeNode [],
        generateExpandedXml "R" c5record.def_type (c5record.raw_nodes.foldl mergeNode [])) :=
  ⟨rfl, rfl, rfl, rfl,
    @missing_parent_two_element_chain [("R", c5record)] "R" "Ghost" c5record
      rfl rfl rfl rfl 0⟩

/-- C8: a reader error acts as an end-of-file at the failure point: the
records fully closed before it are returned and the remaining events of that
file are ignored; at the scan level every file contributes independently, so
a failing or unreadable file never disturbs the records obtained from the
others. -/
theorem malformed_xml_is_local : ∀ (st : PState) (pre rest : List XmlEvent)
    (files1 files2 : List (Option (List XmlEvent))) (evs : List XmlEvent),
    parseAux st (pre ++ XmlEvent.err :: rest) = parseAux st (pre ++ [XmlEvent.eof]) ∧
    scanAllDefs (files1 ++ some evs :: files2)
      = scanAllDefs files1 ++ parseEvents evs ++ scanAllDefs files2 ∧
    scanAllDefs (files1 ++ none :: files2) = scanAllDefs files1 ++ scanAllDefs files2 := by
  intro st pre rest files1 files2 evs
  refine ⟨?_, ?_, ?_⟩
  · induction pre generalizing st with
    | nil => rfl
    | cons e pre ih =>
      cases e with
      | eof => rfl
      | err => rfl
      | start tag attrs => exact ih _
      | emptyTag tag attrs => exact ih _
      | text s => exact ih _
      | endTag tag => exact ih _
  · simp [scanAllDefs, parseDefData, List.filterMap_append]
  · simp [scanAllDefs, parseDefData, List.filterMap_append]

theorem parseAux_start (st : PState) (t : String) (a : List (String × String))
    (l : List XmlEvent) :
    parseAux st (XmlEvent.start t a :: l) = parseAux (stepEvent st (XmlEvent.start t a)) l := rfl

theorem parseAux_emptyTag (st : PState) (t : String) (a : List (String × String))
    (l : List XmlEvent) :
    parseAux st (XmlEvent.emptyTag t a :: l)
      = parseAux (stepEvent st (XmlEvent.emptyTag t a)) l := rfl

theorem parseAux_text (st : PState) (s : String) (l : List XmlEvent) :
    parseAux st (XmlEvent.text s :: l) = parseAux (stepEvent st (XmlEvent.text s)) l := rfl

theorem parseAux_endTag (st : PState) (t : String) (l : List XmlEvent) :
    parseAux st (XmlEvent.endTag t :: l) = parseAux (stepEvent st (XmlEvent.endTag t)) l := rfl

/-- C7 counterexample: a record that is not abstract but carries both a
`Name="N"` attribute and a `defName` child with text `D` is keyed by the
`Name` attribute value `N`, not by the `defName` text `D` required by the
claim. -/
theorem identity_key_counterexample :
    (parseEvents (c7events (some "N") false "D")).map DefData.def_name = ["N"] ∧
    ["N"] ≠ ["D"] :=
  ⟨rfl, by decide⟩

/-- C7 as corrected: the `Name` attribute, whenever present, always provides
the record's identity key regardless of the abstract flag; the trimmed
`defName` child text is used only when no `Name` attribute was seen.  In
particular a non-abstract record with both is keyed by the `Name` attribute
value. -/
theorem identity_key_name_attr_priority (v d : String) (ab : Bool) :
    ((parseEvents (c7events (some v) ab d)).map DefData.def_name = [v]) ∧
    (trimStr d ≠ "" → (parseEvents (c7events none ab d)).map DefData.def_name = [trimStr d]) := by
  have he1 : endsWithStr "ThingDef" "Def" = true := by decide
  have he2 : endsWithStr "defName" "Def" = false := by decide
  have he3 : endsWithStr "Defs" "Def" = false := by decide
  constructor
  · cases ab <;>
    · by_cases hd : trimStr d = "" <;>
        simp [parseEvents, c7events, parseAux_start, parseAux_text, parseAux_endTag,
          parseAux, stepEvent, applyDefAttr, initPState, he1, he2, he3, addChild, setText, hd,
          XmlNode_tag_mk, XmlNode_attributes_mk, XmlNode_children_mk, XmlNode_text_mk]
  · intro hd
    cases ab <;>
      simp [parseEvents, c7events, parseAux_start, parseAux_text, parseAux_endTag,
        parseAux, stepEvent, applyDefAttr, initPState, he1, he2, he3, addChild, setText, hd,
        XmlNode_tag_mk, XmlNode_attributes_mk, XmlNode_children_mk, XmlNode_text_mk]

theorem identity_key_witness :
    ((parseEvents (c7events (some "N") false "D")).map DefData.def_name = ["N"]) ∧
    ((parseEvents (c7events none false "D")).map DefData.def_name = [trimStr "D"]) :=
  ⟨(identity_key_name_attr_priority "N" "D" false).1,
   (identity_key_name_attr_priority "N" "D" false).2 (by decide)⟩

theorem extract_general (tagName : String) : ∀ (evs : List XmlEvent) (vs : List String)
    (tf lf : Bool),
    extractAux tagName { values := vs, insideTarget := tf, insideLi := lf } evs
      = (collectSpec tagName tf lf evs).foldl insertValue vs := by
  intro evs
  induction evs with
  | nil => intro vs tf lf; rfl
  | cons e rest ih =>
    intro vs tf lf
    cases e with
    | eof => rfl
    | err => rfl
    | emptyTag tag attrs =>
      show extractAux tagName _ rest = _
      rw [ih]
      rfl
    | start tag attrs =>
      show extractAux tagName _ rest = _
      by_cases h1 : toLowerStr tag = toLowerStr tagName
      · simp only [extractStep, collectSpec, if_pos h1]
        exact ih vs true lf
      · by_cases h2 : tag = "li" ∧ tf = true
        · simp only [extractStep, collectSpec, if_neg h1]
          rcases h2 with ⟨h2a, h2b⟩
          subst h2a
          subst h2b
          simp only [if_pos (And.intro rfl rfl)]
          exact ih vs true true
        · simp only [extractStep, collectSpec, if_neg h1]
          rw [if_neg, if_neg]
          · exact ih vs tf lf
          · exact h2
          · intro hc
            exact h2 ⟨hc.1, hc.2⟩
    | text s =>
      show extractAux tagName _ rest = _
      by_cases hs : trimStr s = "" <;>
        cases lf <;> cases tf <;>
          simp [extractStep, collectSpec, hs, ih, insertValue]
    | endTag tag =>
      show extractAux tagName _ rest = _
      by_cases h1 : tag = tagName
      · simp only [extractStep, collectSpec, if_pos h1]
        exact ih vs false lf
      · by_cases h2 : tag = "li"
        · simp only [extractStep, collectSpec, if_neg h1, if_pos h2]
          exact ih vs tf false
        · simp only [extractStep, collectSpec, if_neg h1, if_neg h2]
          exact ih vs tf lf

theorem foldl_insertValue_nodup : ∀ (l vs : List String), vs.Nodup →
    (l.foldl insertValue vs).Nodup := by
  intro l
  induction l with
  | nil => intro vs h; exact h
  | cons a l ih =>
    intro vs h
    simp only [List.foldl_cons]
    apply ih
    unfold insertValue
    split
    · exact h
    · rename_i hmem
      simp [List.nodup_append, h, hmem]

/-- C9 counterexample: with requested tag name `foo`, the stream opens and
closes an element `Foo` (a case-insensitive match) with no text inside, then
has text `leak` inside an unrelated element `bar`; the claim implies nothing
is collected, but the extractor returns the value `leak` because the end tag
comparison is case-sensitive and the inside-target flag is never cleared. -/
theorem tag_extract_counterexample :
    extractTagValues "foo" c9events = ["leak"] ∧
    extractTagValues "foo" c9events ≠ [] :=
  ⟨rfl, by decide⟩

/-- C9 as corrected: entering an element whose tag matches the requested name
case-insensitively sets the inside-target flag, but only an end tag equal to
the requested name case-sensitively clears it (an `li` end tag clears the
inside-li flag); while either flag is set, every trimmed non-empty text event
is collected, at any depth, not only directly in the target or in an `li`.
The result is the duplicate-free collection of exactly those texts. -/
theorem tag_extract_flag_characterization (tagName : String) (evs : List XmlEvent) :
    extractTagValues tagName evs = (collectSpec tagName false false evs).foldl insertValue [] ∧
    (extractTagValues tagName evs).Nodup := by
  constructor
  · exact extract_general tagName evs [] false false
  · rw [extractTagValues, extract_general tagName evs [] false false]
    exact foldl_insertValue_nodup _ [] (List.nodup_nil)

theorem lookupA_insertSorted {α : Type} {m : List (String × α)} {k k' : String} {v : α} :
    lookupA (insertSorted m k v) k' = if k = k' then some v else lookupA m k' := by
  induction m with
  | nil => simp [insertSorted, lookupA]
  | cons p rest ih =>
    obtain ⟨k0, v0⟩ := p
    simp only [insertSorted]
    split
    · by_cases hk : k = k'
      · simp [lookupA, hk]
      · simp [lookupA, hk]
    · split
      · rename_i _ heq
        subst heq
        by_cases hk : k = k'
        · simp [lookupA, hk]
        · simp [lookupA, hk]
      · rename_i _ hne
        by_cases hk0 : k0 = k'
        · subst hk0
          have : ¬ k = k0 := fun he => hne he
          simp [lookupA, this]
        · simp [lookupA, hk0, ih]

theorem mergeNode_fresh {m : List (String × XmlNode)} {n : XmlNode}
    (h : lookupA m n.tag = none) : mergeNode m n = insertSorted m n.tag n := by
  obtain ⟨t, a, c, x⟩ := n
  simp only [XmlNode_tag_mk] at h ⊢
  simp [mergeNode, h]

theorem mergeList_fresh_perm : ∀ (ns : List XmlNode) (m : List (String × XmlNode)),
    sortedKeys m → (∀ nd ∈ ns, lookupA m nd.tag = none) → (ns.map XmlNode.tag).Nodup →
    sortedKeys (ns.foldl mergeNode m) ∧
    List.Perm (ns.foldl mergeNode m) (m ++ ns.map (fun nd => (nd.tag, nd))) := by
  intro ns
  induction ns with
  | nil => intro m hs _ _; exact ⟨hs, by simp⟩
  | cons nd ns ih =>
    intro m hs hfresh hnd
    have hfr : lookupA m nd.tag = none := hfresh nd (List.mem_cons_self nd ns)
    have hstep : mergeNode m nd = insertSorted m nd.tag nd := mergeNode_fresh hfr
    have hnd2 : (ns.map XmlNode.tag).Nodup := (List.nodup_cons.mp hnd).2
    have hnotin : nd.tag ∉ ns.map XmlNode.tag := (List.nodup_cons.mp hnd).1
    have hfresh2 : ∀ d ∈ ns, lookupA (insertSorted m nd.tag nd) d.tag = none := by
      intro d hd
      rw [lookupA_insertSorted]
      have hne : ¬ nd.tag = d.tag := by
        intro he
        exact hnotin (by rw [he]; exact List.mem_map_of_mem _ hd)
      simp [hne, hfresh d (List.mem_cons_of_mem _ hd)]
    have hs2 : sortedKeys (insertSorted m nd.tag nd) := sortedKeys_insertSorted hs
    obtain ⟨ih1, ih2⟩ := ih (insertSorted m nd.tag nd) hs2 hfresh2 hnd2
    rw [List.foldl_cons, hstep]
    refine ⟨ih1, ?_⟩
    refine ih2.trans ?_
    have hp1 : List.Perm (insertSorted m nd.tag nd) ((nd.tag, nd) :: m) :=
      insertSorted_perm nd hfr
    refine (hp1.append_right _).trans ?_
    simp only [List.cons_append]
    exact List.perm_middle.symm

/-- C6 counterexample: a parentless record whose children appear in document
order `defName`, `b`, `a` serializes with `a` before `b` — the merged
`BTreeMap` iterates in key order, so the emitted (tag, attributes, text)
tuple sequence differs from the document order of the original. -/
theorem round_trip_order_counterexample :
    parseEvents c6events = [c6record] ∧
    (expandInheritance [("R", c6record)] "R" 0).map (fun t => (t.1, t.2.1))
      = some (["R"], c6merged) ∧
    ("defName", ([] : List (String × String)), some "R") :: tupleSeq (emittedNodes c6merged)
      ≠ tupleSeq c6record.raw_nodes := by
  refine ⟨rfl, ?_, ?_⟩
  · simp [expandInheritance, buildChainAux, mergeNode, lookupA, insertSorted, ltStr,
      ltChars, c6record, c6merged]
  · have h1 : tupleSeq (emittedNodes c6merged) = [("a", [], some "y"), ("b", [], some "x")] := by
      simp [tupleSeq, emittedNodes, c6merged, XmlNode_tag_mk, List.filter_cons]
    have h2 : tupleSeq c6record.raw_nodes
        = [("defName", [], some "R"), ("b", [], some "x"), ("a", [], some "y")] := by
      simp [tupleSeq, c6record]
    rw [h1, h2]
    decide

/-- C6 as corrected: for a record with no ancestors whose top-level tags are
pairwise distinct, serializing the merged result emits exactly the original
top-level subtrees minus any `defName`-tagged one, but reordered: the emitted
sequence is a permutation of the original children sorted strictly
ascending by tag name, not the original document order. -/
theorem round_trip_sorted_by_tag {defs : List (String × DefData)} {name : String}
    {D : DefData} (hD : lookupA defs name = some D) (hDn : D.def_name = name)
    (hDp : D.parent_name = none) (hnd : (D.raw_nodes.map XmlNode.tag).Nodup) :
    ∀ fuel : Nat,
      expandInheritance defs name fuel =
        some ([name], mergeList D.raw_nodes,
          generateExpandedXml name D.def_type (mergeList D.raw_nodes)) ∧
      List.Perm (emittedNodes (mergeList D.raw_nodes))
        (D.raw_nodes.filter (fun nd => nd.tag != "defName")) ∧
      (emittedNodes (mergeList D.raw_nodes)).Pairwise (fun p q => ltStr p.tag q.tag = true) := by
  intro fuel
  have hfresh : ∀ nd ∈ D.raw_nodes, lookupA ([] : List (String × XmlNode)) nd.tag = none := by
    intro _ _
    rfl
  obtain ⟨hsort, hperm⟩ :=
    mergeList_fresh_perm D.raw_nodes [] (by simp [sortedKeys]) hfresh hnd
  rw [List.nil_append] at hperm
  have hsnd : ∀ l : List XmlNode, (l.map (fun nd => (nd.tag, nd))).map Prod.snd = l := by
    intro l
    induction l with
    | nil => rfl
    | cons a l ih => simp [ih]
  have hperm2 : List.Perm ((mergeList D.raw_nodes).map Prod.snd) D.raw_nodes := by
    have h := hperm.map Prod.snd
    rw [hsnd] at h
    simpa [mergeList] using h
  have hmem : ∀ p ∈ mergeList D.raw_nodes, (p.2).tag = p.1 := by
    intro p hp
    have hp2 := hperm.mem_iff.mp (by simpa [mergeList] using hp)
    rcases List.mem_map.mp hp2 with ⟨nd, _, hpe⟩
    rw [← hpe]
  refine ⟨?_, ?_, ?_⟩
  · simp only [expandInheritance, hD, hDn, hDp]
    have hch : buildChainAux defs fuel none [name] = some [name] := by
      cases fuel <;> rfl
    rw [hch]
    simp [hD, mergeList]
  · exact hperm2.filter _
  · have hp2 : (mergeList D.raw_nodes).Pairwise
        (fun p q => ltStr (p.2).tag (q.2).tag = true) := by
      refine List.Pairwise.imp_of_mem ?_ (by simpa [mergeList, sortedKeys] using hsort)
      intro a b ha hb h
      rw [hmem a ha, hmem b hb]
      exact h
    have hp3 : ((mergeList D.raw_nodes).map Prod.snd).Pairwise
        (fun p q => ltStr p.tag q.tag = true) := List.pairwise_map.mpr hp2
    exact List.Pairwise.sublist (List.filter_sublist _) hp3

theorem round_trip_sorted_witness :
    lookupA [("R", c6record)] "R" = some c6record ∧ c6record.def_name = "R" ∧
    c6record.parent_name = none ∧ ((c6record.raw_nodes.map XmlNode.tag).Nodup) ∧
    (expandInheritance [("R", c6record)] "R" 0 =
        some (["R"], mergeList c6record.raw_nodes,
          generateExpandedXml "R" c6record.def_type (mergeList c6record.raw_nodes)) ∧
      List.Perm (emittedNodes (mergeList c6record.raw_nodes))
        (c6record.raw_nodes.filter (fun nd => nd.tag != "defName")) ∧
      (emittedNodes (mergeList c6record.raw_nodes)).Pairwise
        (fun p q => ltStr p.tag q.tag = true)) :=
  ⟨rfl, rfl, rfl, by decide,
   @round_trip_sorted_by_tag [("R", c6record)] "R" c6record rfl rfl rfl (by decide) 0⟩
